import Mathlib

/-!
Shallow embedding of the procedural 2D terrain generator of
`src/main.cpp`: the `Lehmer32` PRNG, `World::getNoiseArray` (random walk,
structural-bounds redraws, in-place smoothing, statistics and water
line), `World::getTreeList`, `World::getCloudList` / `getCloud`, and the
regeneration events of `World::OnUserCreate` / `World::OnUserUpdate`.

Modelling conventions:
* C++ `double` values are modelled as exact rationals (`ℚ`); `0.1`,
  `2.1`, `2.6` denote the decimal fractions written in the source.
* `uint32_t` arithmetic is modelled on `Nat` with explicit reduction
  modulo `2 ^ 32`; a C cast of such a value to `int` is `toInt32`, a C
  cast from `double` to `int` (truncation toward zero) is `truncQ`.
* Undefined behaviour (modulo by zero in `rndInt` when `max = min`,
  indexing an empty vector) is modelled as `none`; the scan loops of
  tree and cloud placement carry a fuel argument that is large enough
  for every terminating run, so `none` also models divergence.
* The screen is 1864 x 920 (`main`); the width is kept as a parameter of
  every operation, the height is the constant `screenHeight`.
-/

namespace TG

set_option maxRecDepth 100000

/-- Screen height of the program's window (`demo.Construct(1864, 920, 1, 1)`). -/
def screenHeight : Int := 920

/-- `World::UPPER_BOUND` (the "high terrain" ceiling in row coordinates). -/
def UPPER_BOUND : Int := 200

/-- `World::LOWER_BOUND` (the "low terrain" floor in row coordinates). -/
def LOWER_BOUND : Int := 800

/-- `World::TREE_FREQ`. -/
def TREE_FREQ : Int := 120

/-- `World::TREE_BARK_HIDE_OFFSET`. -/
def TREE_BARK_HIDE_OFFSET : Int := 15

/-- `World::CLOUD_FREQ`. -/
def CLOUD_FREQ : Int := 200

/-- `World::CLOUD_PART_RADIUS_MIN`. -/
def CLOUD_PART_RADIUS_MIN : Int := 10

/-- `World::CLOUD_PART_RADIUS_MAX`. -/
def CLOUD_PART_RADIUS_MAX : Int := 28

/-- `World::CLOUD_UPPER_BOUND`. -/
def CLOUD_UPPER_BOUND : Int := 50

/-- `World::CLOUD_LOWER_BOUND`. -/
def CLOUD_LOWER_BOUND : Int := 145

/-- `World::N_CLOUD_PARTICLES_MIN`. -/
def N_CLOUD_PARTICLES_MIN : Int := 12

/-- `World::N_CLOUD_PARTICLES_MAX`. -/
def N_CLOUD_PARTICLES_MAX : Int := 20

/-- `World::X_CLOUD_PARTICLE_RANGE`. -/
def X_CLOUD_PARTICLE_RANGE : Int := 45

/-- `World::Y_CLOUD_PARTICLE_RANGE`. -/
def Y_CLOUD_PARTICLE_RANGE : Int := 12

/-- Interpret a `Nat` as a C `int` through a `uint32_t` value
(two's complement reading of the low 32 bits). -/
def toInt32 (n : Nat) : Int :=
  if n % 2 ^ 32 < 2 ^ 31 then ((n % 2 ^ 32 : Nat) : Int)
  else ((n % 2 ^ 32 : Nat) : Int) - 2 ^ 32

/-- One step of `Lehmer32::get()`: `lehmerState += 0xe120fc15`, then two
rounds of a widening multiply whose 64-bit result is folded to 32 bits
by xoring its two halves.  Returns the drawn value and the new state. -/
def lehmerNext (s : Nat) : Nat × Nat :=
  let s1 := (s + 0xe120fc15) % 2 ^ 32
  let t1 := s1 * 0x4a39b70d
  let m1 := (t1 >>> 32) ^^^ (t1 % 2 ^ 32)
  let t2 := m1 * 0x12fad5c9
  let m2 := (t2 >>> 32) ^^^ (t2 % 2 ^ 32)
  (m2, s1)

/-- `Lehmer32::rndInt(min, max) = (int)(get() % (max - min)) + min`.
The modulus is `(uint32_t)(max - min)`; when `max = min` this is a
modulo by zero — undefined behaviour in C++ — modelled as `none`.
(No call site of the program has `max < min`; the unsigned wrap-around
of a negative difference is modelled faithfully.) -/
def rndInt (lo hi : Int) (s : Nat) : Option (Int × Nat) :=
  let p := lehmerNext s
  let m := ((hi - lo) % (2 ^ 32 : Int)).toNat
  if m = 0 then none
  else some (toInt32 (p.1 % m) + lo, p.2)

/-- `Lehmer32::rndDouble(min, max)`: scale `get()` by `1 / 0x7FFFFFFF`,
map into `[min, max]`, then fold back once by the range if the result
fell outside (the deliberate correction kept from the source). -/
def rndDouble (lo hi : ℚ) (s : Nat) : ℚ × Nat :=
  let (g, s1) := lehmerNext s
  let res := (g : ℚ) / 0x7FFFFFFF * (hi - lo) + lo
  if res < lo then (res + (hi - lo), s1)
  else if res > hi then (res - (hi - lo), s1)
  else (res, s1)

/-- C cast from `double` to `int`: truncation toward zero. -/
def truncQ (q : ℚ) : Int := Int.tdiv q.num (q.den : Int)

/-- The velocity update of one walk step (`World::getNoiseArray`, lines
281-284): `acc = rndDouble(-vel * 0.1, vel * 0.1) + vel; vel += acc;`
followed by the two sequential clamp checks written with the signed
`VEL_RATIO` (parameter `ratioV`, default `-1.0`). -/
def velUpdate (range : Int) (ratioV : ℚ) (vel : ℚ) (s : Nat) : ℚ × Nat :=
  let (d, s1) := rndDouble (-vel * 0.1) (vel * 0.1) s
  let acc := d + vel
  let v1 := vel + acc
  let v2 := if v1 > (range : ℚ) / (ratioV / 2) then (range : ℚ) / (ratioV / 3) else v1
  let v3 := if v2 < -(range : ℚ) / (ratioV / 2) then -(range : ℚ) / (ratioV / 3) else v2
  (v3, s1)

/-- One raw draw of the terrain walk on `[lo, hi]` followed by the
structural bounds check with its redraws (lines 270-278). -/
def walkStep (range : Int) (lo hi : ℚ) (s : Nat) : ℚ × Nat :=
  let (d, s1) := rndDouble lo hi s
  if d < (UPPER_BOUND : ℚ) then
    rndDouble (UPPER_BOUND : ℚ) ((UPPER_BOUND + range : Int) : ℚ) s1
  else if d > (LOWER_BOUND : ℚ) then
    rndDouble ((LOWER_BOUND - range : Int) : ℚ) (LOWER_BOUND : ℚ) s1
  else (d, s1)

/-- The walk producing the raw heights of columns `1, 2, …` (lines
270-285): each step draws in `[prev - range - vel, prev + range + vel]`,
applies the bounds check, then updates the velocity. -/
def walkLoop (range : Int) (ratioV : ℚ) (n : Nat) (prev vel : ℚ) (s : Nat) :
    List ℚ × Nat :=
  match n with
  | 0 => ([], s)
  | n + 1 =>
    let (v, s1) := walkStep range (prev - (range : ℚ) - vel) (prev + (range : ℚ) + vel) s
    let (vel1, s2) := velUpdate range ratioV vel s1
    let (rest, s3) := walkLoop range ratioV n v vel1 s2
    (v :: rest, s3)

/-- One iteration `j` of the in-place smoothing pass (lines 288-298):
`noiseArr[j]` is replaced by the mean of the window `noiseArr[j - k]`,
`k < SMOOTH_FACTOR && (j - k) > 0`, read from the current (partially
smoothed) array; the window has `min sf j` entries, and a column with an
empty window (column `0`, or `sf = 0`) is left unchanged. -/
def smoothStep (sf : Nat) (arr : List ℚ) (j : Nat) : List ℚ :=
  let c := min sf j
  if c = 0 then arr
  else arr.set j ((((List.range c).map fun k => arr.getD (j - k) 0).sum) / (c : ℚ))

/-- The smoothing pass applied in place to positions `0, …, n - 1`. -/
def smoothAux (sf : Nat) (arr : List ℚ) (n : Nat) : List ℚ :=
  (List.range n).foldl (smoothStep sf) arr

/-- The whole in-place smoothing pass (lines 288-298). -/
def smoothPass (sf : Nat) (arr : List ℚ) : List ℚ :=
  smoothAux sf arr arr.length

/-- The raw (pre-smoothing) noise array: column `0` is
`rndInt(startRangeFrom, startRangeTo)`, the remaining `size - 1` columns
come from the walk started with velocity `0` (lines 264-285). -/
def rawNoise (size : Nat) (startFrom startTo range : Int) (ratioV : ℚ) (s : Nat) :
    Option (List ℚ × Nat) :=
  (rndInt startFrom startTo s).bind fun (h0, s1) =>
    let w := walkLoop range ratioV (size - 1) (h0 : ℚ) 0 s1
    some ((h0 : ℚ) :: w.1, w.2)

/-- Result of `World::getNoiseArray`: the smoothed array, the statistics
fields the method stores on the `World` object (`minLandHeight`,
`maxLandHeight`, `avgLandHeight`, `waterBoundHeight`) and the PRNG state
after all draws. -/
structure NoiseResult where
  arr : List ℚ
  minH : ℚ
  maxH : ℚ
  avgH : ℚ
  water : Int
  state : Nat
deriving DecidableEq

/-- `World::getNoiseArray` (lines 260-315): raw walk, in-place
smoothing, then one pass computing min (from `ScreenHeight()` down), max
(from `0` up) and the sum for the average; the water line is the C
`(int)` cast of `(2 * avg + max) / 3`.  `size = 0` would index an empty
vector, modelled as `none`. -/
def getNoiseArray (size : Nat) (startFrom startTo range : Int) (sf : Nat)
    (ratioV : ℚ) (s : Nat) : Option NoiseResult :=
  if size = 0 then none else
  (rawNoise size startFrom startTo range ratioV s).bind fun (raw, s1) =>
    let arr := smoothPass sf raw
    let minH := arr.foldl (fun m v => if v < m then v else m) ((screenHeight : Int) : ℚ)
    let maxH := arr.foldl (fun m v => if v > m then v else m) 0
    let avgH := arr.foldl (· + ·) 0 / (arr.length : ℚ)
    some ⟨arr, minH, maxH, avgH, truncQ ((2 * avgH + maxH) / 3), s1⟩

/-- `ResourceContainer::treeColorPalette` (index 3 is bark, 0-2 leaves). -/
def treeColorPalette : List Nat := [0xff2aa220, 0xff2aa23a, 0xff2bc311, 0xff143a69]

/-- `ResourceContainer::getTreeColor`. -/
def getTreeColor (i : Nat) : Nat := treeColorPalette.getD i 0

/-- `res::Tree` (colors as raw 32-bit pixel values). -/
structure Tree where
  x : Int
  y : Int
  radius : Int
  height : Int
  width : Int
  barkColor : Nat
  leafColor : Nat
deriving DecidableEq

/-- The geometry draws of one placed tree (lines 331-339), in source
order: width, height (plus `TREE_BARK_HIDE_OFFSET`), leaf radius
`rndDouble(2.1, 2.6) * w`, leaf colour; bark colour is palette index 3;
`y` is the terrain sample at the column, cast to `int`. -/
def treeGeom (arr : List ℚ) (x : Int) (s : Nat) : Option (Tree × Nat) :=
  let y := arr.getD x.toNat 0
  (rndInt 6 14 s).bind fun (w, s1) =>
    (rndInt 36 56 s1).bind fun (h0, s2) =>
      let h := h0 + TREE_BARK_HIDE_OFFSET
      let p := rndDouble 2.1 2.6 s2
      let r := p.1 * (w : ℚ)
      (rndInt 0 3 p.2).bind fun (leaf, s4) =>
        some (⟨x, truncQ y, truncQ r, h, w, getTreeColor 3, getTreeColor leaf.toNat⟩, s4)

/-- The scan loop of `World::getTreeList` (lines 329-342): while
`x < ScreenWidth() - 40`, place a tree at `x` exactly when
`noiseArr[x] < avgLandHeight`, then advance `x` by a fresh
`rndInt(frequency / 2, frequency / 2 * 3)`.  `fuel` bounds the number of
iterations (chosen large enough in `getTreeList`; exhaustion models a
non-terminating loop).  Besides the trees and the final PRNG state the
model returns the list of scanned candidate columns as a ghost output.
The advance draw, written once after the conditional in the source, is
spelled once per branch of the placement conditional here. -/
def treeLoop (freq : Int) (arr : List ℚ) (avg : ℚ) (width : Nat) (fuel : Nat)
    (x : Int) (s : Nat) : Option (List Tree × List Int × Nat) :=
  match fuel with
  | 0 => none
  | fuel + 1 =>
    if x < (width : Int) - 40 then
      if arr.getD x.toNat 0 < avg then
        (treeGeom arr x s).bind fun (t, s1) =>
          (rndInt (Int.tdiv freq 2) (Int.tdiv freq 2 * 3) s1).bind fun (d, s2) =>
            (treeLoop freq arr avg width fuel (x + d) s2).bind fun (ts, cols, s3) =>
              some (t :: ts, x :: cols, s3)
      else
        (rndInt (Int.tdiv freq 2) (Int.tdiv freq 2 * 3) s).bind fun (d, s2) =>
          (treeLoop freq arr avg width fuel (x + d) s2).bind fun (ts, cols, s3) =>
            some (ts, x :: cols, s3)
    else some ([], [], s)

/-- `World::getTreeList` (lines 324-344): start at `x = 40` plus a first
randomized step, then run the scan loop.  The average height is the
`avgLandHeight` member computed by `getNoiseArray`, passed explicitly. -/
def getTreeList (freq : Int) (arr : List ℚ) (avg : ℚ) (width : Nat) (s : Nat) :
    Option (List Tree × List Int × Nat) :=
  (rndInt (Int.tdiv freq 2) (Int.tdiv freq 2 * 3) s).bind fun (d, s1) =>
    treeLoop freq arr avg width (width + 1) (40 + d) s1

/-- `res::CloudPart`. -/
structure CloudPart where
  x : Int
  y : Int
  r : Int
  color : Nat
deriving DecidableEq

/-- `res::Cloud`. -/
structure Cloud where
  x : Int
  y : Int
  cloudParts : List CloudPart
deriving DecidableEq

/-- `ResourceContainer::cloudColor`. -/
def cloudColor : Nat := 0xffffffff

/-- The particle loop of `World::getCloud` (lines 369-375).  The three
draws of one particle are modelled in the textual order horizontal
offset, vertical offset, radius (the C++ constructor-argument evaluation
order is unspecified; the reference behaviour is one fixed order). -/
def cloudPartsLoop (x y : Int) (n : Nat) (s : Nat) : Option (List CloudPart × Nat) :=
  match n with
  | 0 => some ([], s)
  | n + 1 =>
    (rndInt (-X_CLOUD_PARTICLE_RANGE) X_CLOUD_PARTICLE_RANGE s).bind fun (dx, s1) =>
      (rndInt (-Y_CLOUD_PARTICLE_RANGE) Y_CLOUD_PARTICLE_RANGE s1).bind fun (dy, s2) =>
        (rndInt CLOUD_PART_RADIUS_MIN CLOUD_PART_RADIUS_MAX s2).bind fun (r, s3) =>
          (cloudPartsLoop x y n s3).bind fun (ps, s4) =>
            some (⟨x + dx, y + dy, r, cloudColor⟩ :: ps, s4)

/-- `World::getCloud` (lines 366-377): `nParticles` particles around the
anchor `(x, y)` (the C++ loop `while (nParticles-- > 0)` runs
`max nParticles 0` times). -/
def getCloud (nParticles : Int) (x y : Int) (s : Nat) : Option (Cloud × Nat) :=
  (cloudPartsLoop x y nParticles.toNat s).bind fun (ps, s1) => some (⟨x, y, ps⟩, s1)

/-- The scan loop of `World::getCloudList` (lines 358-362): while
`x < ScreenWidth() - 60`, draw the vertical anchor and the particle
count, build the cloud, then advance `x` by a fresh
`rndInt(frequency / 2, frequency / 2 * 5)`.  `fuel` as in `treeLoop`. -/
def cloudLoop (freq : Int) (width : Nat) (fuel : Nat) (x : Int) (s : Nat) :
    Option (List Cloud × Nat) :=
  match fuel with
  | 0 => none
  | fuel + 1 =>
    if x < (width : Int) - 60 then
      (rndInt CLOUD_UPPER_BOUND CLOUD_LOWER_BOUND s).bind fun (y, s1) =>
        (rndInt N_CLOUD_PARTICLES_MIN N_CLOUD_PARTICLES_MAX s1).bind fun (nP, s2) =>
          (getCloud nP x y s2).bind fun (c, s3) =>
            (rndInt (Int.tdiv freq 2) (Int.tdiv freq 2 * 5) s3).bind fun (d, s4) =>
              (cloudLoop freq width fuel (x + d) s4).bind fun (cs, s5) =>
                some (c :: cs, s5)
    else some ([], s)

/-- `World::getCloudList` (lines 353-364): start at `x = 60` plus a
first randomized step, then run the scan loop. -/
def getCloudList (freq : Int) (width : Nat) (s : Nat) : Option (List Cloud × Nat) :=
  (rndInt (Int.tdiv freq 2) (Int.tdiv freq 2 * 5) s).bind fun (d, s1) =>
    cloudLoop freq width (width + 1) (60 + d) s1

/-- The full generation pipeline run at startup and on regeneration:
terrain (`startRangeFrom = 100`, `startRangeTo = ScreenHeight() - 100`,
`range = 2`), then trees, then clouds, all drawn from one `Lehmer32`
stream seeded with `seed`. -/
def generatePipeline (width : Nat) (seed : Nat) (sf : Nat) :
    Option (NoiseResult × List Tree × List Cloud × Nat) :=
  (getNoiseArray width 100 (screenHeight - 100) 2 sf (-1) seed).bind fun nr =>
    (getTreeList TREE_FREQ nr.arr nr.avgH width nr.state).bind fun (ts, _, s1) =>
      (getCloudList CLOUD_FREQ width s1).bind fun (cs, s2) =>
        some (nr, ts, cs, s2)

/-- The generation state held by the `World` object: current seed,
noise array with its statistics, tree list and cloud list. -/
structure WorldState where
  seed : Nat
  noise : NoiseResult
  trees : List Tree
  clouds : List Cloud
deriving DecidableEq

/-- `World::OnUserCreate` (lines 160-172): seed `0`, smooth factor `8`,
terrain then trees then clouds. -/
def onUserCreate (width : Nat) : Option WorldState :=
  (generatePipeline width 0 8).bind fun (nr, ts, cs, _) => some ⟨0, nr, ts, cs⟩

/-- The `SPACE` branch of `World::OnUserUpdate` (lines 180-190):
increment the seed, reseed the PRNG, regenerate terrain (smooth factor
`12`), delete and rebuild the tree list and the cloud list. -/
def onSpaceUpdate (width : Nat) (st : WorldState) : Option WorldState :=
  (generatePipeline width (st.seed + 1) 12).bind fun (nr, ts, cs, _) =>
    some ⟨st.seed + 1, nr, ts, cs⟩

/-- The `C`-held branch of `World::OnUserUpdate` (lines 193-200):
increment the seed, reseed the PRNG, regenerate terrain (smooth factor
`12`) and rebuild the tree list; the cloud list is not touched by this
branch. -/
def onHeldUpdate (width : Nat) (st : WorldState) : Option WorldState :=
  (getNoiseArray width 100 (screenHeight - 100) 2 12 (-1) (st.seed + 1)).bind fun nr =>
    (getTreeList TREE_FREQ nr.arr nr.avgH width nr.state).bind fun (ts, _, _) =>
      some ⟨st.seed + 1, nr, ts, st.clouds⟩

/-- Reading of the velocity update under which the spec's claim C3 is
stated, written from the claim's words for comparison with `velUpdate`:
exactly one drawn acceleration `doubleInRange(-0.1*vel, 0.1*vel)` is
added to the velocity, and the result is clamped to
`±range/(|ratio|/3)` exactly when it exceeds `±range/(|ratio|/2)`. -/
def velUpdateSpec (range : Int) (ratioV : ℚ) (vel : ℚ) (s : Nat) : ℚ × Nat :=
  let (d, s1) := rndDouble (-(0.1 * vel)) (0.1 * vel) s
  let v1 := vel + d
  let v2 :=
    if v1 > (range : ℚ) / (|ratioV| / 2) then (range : ℚ) / (|ratioV| / 3)
    else if v1 < -((range : ℚ) / (|ratioV| / 2)) then -((range : ℚ) / (|ratioV| / 3))
    else v1
  (v2, s1)

/-- The update the source actually performs, in closed form: the added
"acceleration" contains the velocity itself, so the velocity becomes
`2 * vel + d`, after which the two sequential checks with the signed
ratio run. -/
def velUpdateAmended (range : Int) (ratioV : ℚ) (vel : ℚ) (s : Nat) : ℚ × Nat :=
  let (d, s1) := rndDouble (-vel * 0.1) (vel * 0.1) s
  let v1 := 2 * vel + d
  let v2 := if v1 > (range : ℚ) / (ratioV / 2) then (range : ℚ) / (ratioV / 3) else v1
  let v3 := if v2 < -(range : ℚ) / (ratioV / 2) then -(range : ℚ) / (ratioV / 3) else v2
  (v3, s1)

/-- A concrete world state used for the regeneration-event claims: seed
`0`, empty terrain data, no trees, one cloud. -/
def c2State : WorldState := ⟨0, ⟨[], 0, 0, 0, 0, 0⟩, [], [⟨0, 0, []⟩]⟩

/-- The state after the held-`C` regeneration event at width `3`. -/
def c2Held : WorldState := (onHeldUpdate 3 c2State).getD c2State

/-- The state after the `SPACE` regeneration event at width `3`. -/
def c2Space : WorldState := (onSpaceUpdate 3 c2State).getD c2State

/-- The generation result for seed `0`, width `3` (smooth factor 8). -/
def c5Run : NoiseResult := (getNoiseArray 3 100 820 2 8 (-1) 0).getD ⟨[], 0, 0, 0, 0, 0⟩

/-- The generation result for seed `0`, width `1` (smooth factor 8). -/
def c5Wit : NoiseResult := (getNoiseArray 1 100 820 2 8 (-1) 0).getD ⟨[], 0, 0, 0, 0, 0⟩

/-- The generation result for seed `11`, width `2` (smooth factor 8);
its column `0` lands at `154`. -/
def c6Bad : NoiseResult := (getNoiseArray 2 100 820 2 8 (-1) 11).getD ⟨[], 0, 0, 0, 0, 0⟩

/-- The generation result for seed `0`, width `2` (smooth factor 8). -/
def c6Wit : NoiseResult := (getNoiseArray 2 100 820 2 8 (-1) 0).getD ⟨[], 0, 0, 0, 0, 0⟩

/-- The raw (pre-smoothing) array for seed `0`, width `1`. -/
def c10Raw : List ℚ × Nat := (rawNoise 1 100 820 2 (-1) 0).getD ([], 0)

/-- The generation result for seed `0`, width `1`, as used by the
column-`0` smoothing claim. -/
def c10Res : NoiseResult := (getNoiseArray 1 100 820 2 8 (-1) 0).getD ⟨[], 0, 0, 0, 0, 0⟩

/-! ### Bounds for the PRNG draws -/

theorem fold32_lt (a b : Nat) (ha : a < 2 ^ 32) (hb : b < 2 ^ 32) :
    ((a * b) >>> 32) ^^^ ((a * b) % 2 ^ 32) < 2 ^ 32 := by
  refine Nat.xor_lt_two_pow ?_ (Nat.mod_lt _ (by norm_num))
  rw [Nat.shiftRight_eq_div_pow]
  exact Nat.div_lt_of_lt_mul (Nat.mul_lt_mul'' ha hb)

theorem lehmerNext_fst_lt (s : Nat) : (lehmerNext s).1 < 2 ^ 32 := by
  unfold lehmerNext
  exact fold32_lt _ _ (fold32_lt _ _ (Nat.mod_lt _ (by norm_num)) (by norm_num))
    (by norm_num)

theorem lehmerNext_fst_le (s : Nat) : ((lehmerNext s).1 : ℚ) ≤ 4294967295 := by
  have h := lehmerNext_fst_lt s
  have h2 : (lehmerNext s).1 ≤ 4294967295 := by omega
  exact_mod_cast h2

/-- Lower bound of `rndDouble` on a nonempty range. -/
theorem rndDouble_ge {lo hi : ℚ} (h : lo ≤ hi) (s : Nat) :
    lo ≤ (rndDouble lo hi s).1 := by
  rcases hL : lehmerNext s with ⟨g, s1⟩
  have hg0 : (0 : ℚ) ≤ (g : ℚ) := by positivity
  simp only [rndDouble, hL]
  have hres : lo ≤ (g : ℚ) / 0x7FFFFFFF * (hi - lo) + lo := by nlinarith
  split_ifs with h1 h2
  · linarith
  · linarith
  · linarith

/-- Upper bound of `rndDouble` on a nonempty range: the one-sided fold
can overshoot `hi` by at most `(hi - lo) / 0x7FFFFFFF`. -/
theorem rndDouble_le {lo hi : ℚ} (h : lo ≤ hi) (s : Nat) :
    (rndDouble lo hi s).1 ≤ hi + (hi - lo) / 2147483647 := by
  rcases hL : lehmerNext s with ⟨g, s1⟩
  have hg0 : (0 : ℚ) ≤ (g : ℚ) := by positivity
  have hgle : (g : ℚ) ≤ 4294967295 := by
    have := lehmerNext_fst_le s
    rwa [hL] at this
  simp only [rndDouble, hL]
  have hres : (g : ℚ) / 0x7FFFFFFF * (hi - lo) + lo ≤
      lo + 4294967295 / 2147483647 * (hi - lo) := by nlinarith
  have hdiv : (0 : ℚ) ≤ (hi - lo) / 2147483647 :=
    div_nonneg (by linarith) (by norm_num)
  split_ifs with h1 h2
  · linarith
  · nlinarith
  · linarith

/-! ### Bounds for the bounded walk (`range = 2`) -/

/-- After the structural bounds check every accepted or redrawn height
lies in `[200, 802]`. -/
theorem walkStep_bounds (lo hi : ℚ) (s : Nat) :
    200 ≤ (walkStep 2 lo hi s).1 ∧ (walkStep 2 lo hi s).1 ≤ 802 := by
  rcases hd : rndDouble lo hi s with ⟨d, s1⟩
  simp only [walkStep, UPPER_BOUND, LOWER_BOUND, hd]
  norm_num
  split_ifs with h1 h2
  · have hge := rndDouble_ge (show (200 : ℚ) ≤ 202 by norm_num) s1
    have hle := rndDouble_le (show (200 : ℚ) ≤ 202 by norm_num) s1
    constructor <;> [linarith; nlinarith]
  · have hge := rndDouble_ge (show (798 : ℚ) ≤ 800 by norm_num) s1
    have hle := rndDouble_le (show (798 : ℚ) ≤ 800 by norm_num) s1
    constructor <;> [linarith; nlinarith]
  · constructor <;> linarith

/-- Every height produced by the walk lies in `[200, 802]`. -/
theorem walkLoop_mem_bounds (ratioV : ℚ) :
    ∀ (n : Nat) (prev vel : ℚ) (s : Nat),
      ∀ v ∈ (walkLoop 2 ratioV n prev vel s).1, 200 ≤ v ∧ v ≤ 802 := by
  intro n
  induction n with
  | zero => intro prev vel s v hv; simp [walkLoop] at hv
  | succ n ih =>
    intro prev vel s v hv
    rcases hw : walkStep 2 (prev - ((2 : Int) : ℚ) - vel) (prev + ((2 : Int) : ℚ) + vel) s
      with ⟨w, s1⟩
    rcases hu : velUpdate 2 ratioV vel s1 with ⟨vel1, s2⟩
    rcases hr : walkLoop 2 ratioV n w vel1 s2 with ⟨rest, s3⟩
    simp only [walkLoop, hw, hu, hr] at hv
    rcases List.mem_cons.mp hv with rfl | hv
    · have := walkStep_bounds (prev - ((2 : Int) : ℚ) - vel) (prev + ((2 : Int) : ℚ) + vel) s
      rwa [hw] at this
    · have := ih w vel1 s2 v
      rw [hr] at this
      exact this hv

/-! ### Sums, `List.getD` and `List.set` -/

theorem list_sum_bounds {lo hi : ℚ} :
    ∀ l : List ℚ, (∀ x ∈ l, lo ≤ x ∧ x ≤ hi) →
      (l.length : ℚ) * lo ≤ l.sum ∧ l.sum ≤ (l.length : ℚ) * hi := by
  intro l
  induction l with
  | nil => simp
  | cons a t ih =>
    intro h
    obtain ⟨h1, h2⟩ := h a (by simp)
    obtain ⟨h3, h4⟩ := ih fun x hx => h x (by simp [hx])
    simp only [List.sum_cons, List.length_cons]
    push_cast
    constructor <;> nlinarith

theorem getD_set_ne {l : List ℚ} {v d : ℚ} {i j : Nat} (h : j ≠ i) :
    (l.set j v).getD i d = l.getD i d := by
  simp [List.getD_eq_getD_get?, List.getElem?_set_ne h]

theorem getD_set_self {l : List ℚ} {v d : ℚ} {j : Nat} (h : j < l.length) :
    (l.set j v).getD j d = v := by
  simp [List.getD_eq_getD_get?, List.getElem?_set_self h]

/-! ### Structure of the in-place smoothing pass -/

theorem smoothStep_length (sf : Nat) (arr : List ℚ) (j : Nat) :
    (smoothStep sf arr j).length = arr.length := by
  unfold smoothStep
  dsimp only
  split_ifs <;> simp

theorem smoothStep_getD_ne (sf : Nat) (arr : List ℚ) {i j : Nat} (h : j ≠ i) (d : ℚ) :
    (smoothStep sf arr j).getD i d = arr.getD i d := by
  unfold smoothStep
  dsimp only
  split_ifs with hc
  · rfl
  · exact getD_set_ne h

theorem smoothAux_succ (sf : Nat) (arr : List ℚ) (n : Nat) :
    smoothAux sf arr (n + 1) = smoothStep sf (smoothAux sf arr n) n := by
  unfold smoothAux
  rw [List.range_succ, List.foldl_append, List.foldl_cons, List.foldl_nil]

theorem smoothAux_length (sf : Nat) (arr : List ℚ) (n : Nat) :
    (smoothAux sf arr n).length = arr.length := by
  induction n with
  | zero => rfl
  | succ n ih => rw [smoothAux_succ, smoothStep_length, ih]

/-- Positions not yet processed still hold the original values. -/
theorem smoothAux_getD_of_le (sf : Nat) (arr : List ℚ) (d : ℚ) :
    ∀ {n j : Nat}, n ≤ j → (smoothAux sf arr n).getD j d = arr.getD j d := by
  intro n
  induction n with
  | zero => intro j _; rfl
  | succ n ih =>
    intro j h
    rw [smoothAux_succ, smoothStep_getD_ne _ _ (by omega), ih (by omega)]

/-- A processed position never changes again. -/
theorem smoothAux_getD_stable (sf : Nat) (arr : List ℚ) (d : ℚ) {j : Nat} :
    ∀ {n : Nat}, j + 1 ≤ n →
      (smoothAux sf arr n).getD j d = (smoothAux sf arr (j + 1)).getD j d := by
  intro n
  induction n with
  | zero => intro h; omega
  | succ n ih =>
    intro h
    by_cases hj : j + 1 = n + 1
    · rw [hj]
    · rw [smoothAux_succ, smoothStep_getD_ne _ _ (by omega), ih (by omega)]

theorem smoothPass_length (sf : Nat) (arr : List ℚ) :
    (smoothPass sf arr).length = arr.length :=
  smoothAux_length sf arr arr.length

/-- Column `0` is left unchanged by the smoothing pass (its window is
empty). -/
theorem smoothPass_getD_zero (sf : Nat) (arr : List ℚ) (d : ℚ) :
    (smoothPass sf arr).getD 0 d = arr.getD 0 d := by
  unfold smoothPass
  cases hn : arr.length with
  | zero => rfl
  | succ n =>
    rw [smoothAux_getD_stable sf arr d (by omega)]
    rw [smoothAux_succ]
    have h0 : smoothAux sf arr 0 = arr := rfl
    rw [h0]
    unfold smoothStep
    simp

/-- One smoothing iteration preserves interval bounds that hold on all
positions `1 ≤ i < length`. -/
theorem smoothStep_bounds {lo hi : ℚ} (sf : Nat) (arr : List ℚ) (j : Nat)
    (h : ∀ i, 1 ≤ i → i < arr.length → lo ≤ arr.getD i 0 ∧ arr.getD i 0 ≤ hi) :
    ∀ i, 1 ≤ i → i < arr.length →
      lo ≤ (smoothStep sf arr j).getD i 0 ∧ (smoothStep sf arr j).getD i 0 ≤ hi := by
  intro i hi1 hi2
  unfold smoothStep
  dsimp only
  by_cases hc : min sf j = 0
  · simp only [hc, if_pos rfl]
    exact h i hi1 hi2
  · simp only [if_neg hc]
    by_cases hij : j = i
    · subst hij
      rw [getD_set_self (by omega)]
      set L := (List.range (min sf j)).map fun k => arr.getD (j - k) 0 with hL
      have hmem : ∀ x ∈ L, lo ≤ x ∧ x ≤ hi := by
        intro x hx
        rw [hL] at hx
        obtain ⟨k, hk, rfl⟩ := List.mem_map.mp hx
        have hk' : k < min sf j := List.mem_range.mp hk
        exact h (j - k) (by omega) (by omega)
      obtain ⟨hs1, hs2⟩ := list_sum_bounds L hmem
      have hLlen : L.length = min sf j := by rw [hL]; simp
      have hcpos : (0 : ℚ) < ((min sf j : Nat) : ℚ) := by
        exact_mod_cast Nat.pos_of_ne_zero hc
      rw [hLlen] at hs1 hs2
      constructor
      · rw [le_div_iff₀ hcpos]; linarith
      · rw [div_le_iff₀ hcpos]; linarith
    · rw [getD_set_ne hij]
      exact h i hi1 hi2

theorem smoothAux_bounds {lo hi : ℚ} (sf : Nat) (arr : List ℚ)
    (h : ∀ i, 1 ≤ i → i < arr.length → lo ≤ arr.getD i 0 ∧ arr.getD i 0 ≤ hi) :
    ∀ n i, 1 ≤ i → i < arr.length →
      lo ≤ (smoothAux sf arr n).getD i 0 ∧ (smoothAux sf arr n).getD i 0 ≤ hi := by
  intro n
  induction n with
  | zero => exact h
  | succ n ih =>
    intro i hi1 hi2
    rw [smoothAux_succ]
    have hlen : (smoothAux sf arr n).length = arr.length := smoothAux_length sf arr n
    exact smoothStep_bounds sf (smoothAux sf arr n) n
      (fun i h1 h2 => ih i h1 (by rw [hlen] at h2; exact h2)) i hi1
      (by rw [hlen]; exact hi2)

/-- The smoothing pass preserves interval bounds on positions `≥ 1`. -/
theorem smoothPass_bounds {lo hi : ℚ} (sf : Nat) (arr : List ℚ)
    (h : ∀ i, 1 ≤ i → i < arr.length → lo ≤ arr.getD i 0 ∧ arr.getD i 0 ≤ hi) :
    ∀ i, 1 ≤ i → i < arr.length →
      lo ≤ (smoothPass sf arr).getD i 0 ∧ (smoothPass sf arr).getD i 0 ≤ hi :=
  smoothAux_bounds sf arr h arr.length

/-- The window identity of the in-place pass for a column with a full
window: the smoothed value at `j ≥ smoothFactor` is the mean of the
original sample at `j` and the already-smoothed values at
`j - 1, …, j - (smoothFactor - 1)`. -/
theorem smoothPass_getD_window (sf : Nat) (arr : List ℚ) {j : Nat}
    (hsf : 1 ≤ sf) (hj : sf ≤ j) (hlen : j < arr.length) :
    (smoothPass sf arr).getD j 0 =
      (arr.getD j 0 + ((List.range (sf - 1)).map fun k =>
        (smoothPass sf arr).getD (j - 1 - k) 0).sum) / (sf : ℚ) := by
  have h1 : (smoothPass sf arr).getD j 0 = (smoothAux sf arr (j + 1)).getD j 0 := by
    unfold smoothPass
    exact smoothAux_getD_stable sf arr 0 (by omega)
  rw [h1, smoothAux_succ]
  have hminj : min sf j = sf := Nat.min_eq_left hj
  unfold smoothStep
  dsimp only
  simp only [hminj, if_neg (by omega : ¬ sf = 0)]
  rw [getD_set_self (by rw [smoothAux_length]; omega)]
  congr 1
  obtain ⟨m, rfl⟩ : ∃ m, sf = m + 1 := ⟨sf - 1, by omega⟩
  rw [List.range_succ_eq_map]
  simp only [List.map_cons, List.sum_cons, Nat.sub_zero, List.map_map, Nat.add_sub_cancel]
  congr 1
  · exact smoothAux_getD_of_le (m + 1) arr 0 le_rfl
  · refine congrArg List.sum (List.map_congr_left ?_)
    intro k hk
    have hk' : k < m := List.mem_range.mp hk
    simp only [Function.comp]
    have hidx : j - (k + 1) = j - 1 - k := by omega
    have hlt : j - 1 - k + 1 ≤ j := by omega
    rw [hidx, smoothAux_getD_stable (m + 1) arr 0 (by omega)]
    unfold smoothPass
    exact (smoothAux_getD_stable (m + 1) arr 0 (by omega)).symm

/-! ### The velocity invariant of the program's invocation
(`range = 2`, `VEL_RATIO = -1.0`) -/

/-- For every nonnegative incoming velocity (which covers the initial
`vel = 0` and every later `vel = 6`) the two clamp checks fire in
sequence and the updated velocity is exactly `6`. -/
theorem velUpdate_of_nonneg (vel : ℚ) (s : Nat) (h : 0 ≤ vel) :
    (velUpdate 2 (-1) vel s).1 = 6 := by
  rcases hd : rndDouble (-vel * 0.1) (vel * 0.1) s with ⟨d, s1⟩
  have hlohi : -vel * 0.1 ≤ vel * 0.1 := by nlinarith
  have hge := rndDouble_ge hlohi s
  rw [hd] at hge
  simp only [velUpdate, hd]
  norm_num
  split_ifs with h1
  · norm_num
  · exfalso
    push_cast at h1
    nlinarith

/-! ### The tree-placement scan -/

theorem treeGeom_x (arr : List ℚ) (x : Int) (s : Nat) (t : Tree) (s1 : Nat)
    (h : treeGeom arr x s = some (t, s1)) : t.x = x := by
  unfold treeGeom at h
  obtain ⟨⟨w, sa⟩, h6, h⟩ := Option.bind_eq_some.mp h
  obtain ⟨⟨h0, sb⟩, h36, h⟩ := Option.bind_eq_some.mp h
  obtain ⟨⟨leaf, sd⟩, h03, h⟩ := Option.bind_eq_some.mp h
  exact (congrArg (fun p => (Prod.fst p).x) (Option.some.inj h)).symm

/-- The invariant of the scan loop: the placed trees stand exactly at
the scanned candidate columns whose sample is below the average, and
every scanned column lies left of the right margin. -/
theorem treeLoop_spec (freq : Int) (arr : List ℚ) (avg : ℚ) (width : Nat) :
    ∀ (fuel : Nat) (x : Int) (s : Nat) (ts : List Tree) (cols : List Int) (s1 : Nat),
      treeLoop freq arr avg width fuel x s = some (ts, cols, s1) →
      ts.map Tree.x = cols.filter (fun c => decide (arr.getD c.toNat 0 < avg)) ∧
      ∀ c ∈ cols, c < (width : Int) - 40 := by
  intro fuel
  induction fuel with
  | zero =>
    intro x s ts cols s1 h
    rw [treeLoop] at h
    exact Option.noConfusion h
  | succ fuel ih =>
    intro x s ts cols s1 h
    rw [treeLoop] at h
    by_cases hx : x < (width : Int) - 40
    · rw [if_pos hx] at h
      by_cases hb : arr.getD x.toNat 0 < avg
      · rw [if_pos hb] at h
        obtain ⟨⟨t, sa⟩, hg, h⟩ := Option.bind_eq_some.mp h
        obtain ⟨⟨d, sb⟩, hstep, h⟩ := Option.bind_eq_some.mp h
        obtain ⟨⟨ts2, cols2, sc⟩, hrec, h⟩ := Option.bind_eq_some.mp h
        have h2 := Option.some.inj h
        injection h2 with hts h2
        injection h2 with hcols hs
        subst hts
        subst hcols
        obtain ⟨ih1, ih2⟩ := ih (x + d) sb ts2 cols2 sc hrec
        constructor
        · rw [List.map_cons, List.filter_cons_of_pos (by simpa using hb), ih1,
            treeGeom_x arr x s t sa hg]
        · intro c hc
          rcases List.mem_cons.mp hc with rfl | hc
          · exact hx
          · exact ih2 c hc
      · rw [if_neg hb] at h
        obtain ⟨⟨d, sb⟩, hstep, h⟩ := Option.bind_eq_some.mp h
        obtain ⟨⟨ts2, cols2, sc⟩, hrec, h⟩ := Option.bind_eq_some.mp h
        have h2 := Option.some.inj h
        injection h2 with hts h2
        injection h2 with hcols hs
        subst hts
        subst hcols
        obtain ⟨ih1, ih2⟩ := ih (x + d) sb ts2 cols2 sc hrec
        constructor
        · rw [List.filter_cons_of_neg (by simpa using hb), ih1]
        · intro c hc
          rcases List.mem_cons.mp hc with rfl | hc
          · exact hx
          · exact ih2 c hc
    · rw [if_neg hx] at h
      have h2 := Option.some.inj h
      injection h2 with hts h2
      injection h2 with hcols hs
      subst hts
      subst hcols
      simp

/-- One unfolding of the walk for a nonnegative incoming velocity: the
step draws on `[prev - 2 - vel, prev + 2 + vel]` and the recursion
continues with velocity exactly `6`. -/
theorem walkLoop_succ_eq (n : Nat) (prev vel : ℚ) (s : Nat) (h : 0 ≤ vel) :
    walkLoop 2 (-1) (n + 1) prev vel s =
      (let p := walkStep 2 (prev - 2 - vel) (prev + 2 + vel) s
       let q := velUpdate 2 (-1) vel p.2
       let r := walkLoop 2 (-1) n p.1 6 q.2
       (p.1 :: r.1, r.2)) := by
  rw [walkLoop]
  push_cast
  rcases hp : walkStep 2 (prev - 2 - vel) (prev + 2 + vel) s with ⟨v, s1⟩
  rcases hq : velUpdate 2 (-1) vel s1 with ⟨vel1, s2⟩
  have hv6 := velUpdate_of_nonneg vel s1 h
  rw [hq] at hv6
  dsimp only at hv6
  subst hv6
  rcases hr : walkLoop 2 (-1) n v 6 s2 with ⟨rest, s3⟩
  rfl

/-- A `some`-witness from a cheap `isSome` evaluation: an option known
to be `some` equals `some` of its `getD` value. -/
theorem isSome_eq_some_getD {A : Type} (o : Option A) (d : A) (h : o.isSome = true) :
    o = some (o.getD d) := by
  cases o
  · simp at h
  · rfl

/-! ### The claims -/

/-- Claim C1 (confirmed).  Determinism: two runs of the full pipeline
(terrain generation, then tree placement, then cloud placement) from a
fresh PRNG seeded with the same seed, at the same width, produce
identical terrain arrays, tree lists and cloud lists — in the embedding
the whole pipeline is a pure function of the seed and the width, so
equal seeds give bit-identical results. -/
theorem claim1_determinism (s1 s2 width sf : Nat) (h : s1 = s2) :
    generatePipeline width s1 sf = generatePipeline width s2 sf := by rw [h]

theorem claim1_witness : generatePipeline 5 0 8 = generatePipeline 5 0 8 :=
  claim1_determinism 0 0 5 8 rfl

/-- Claim C2 (corrected).  The held-`C` regeneration event does not
rebuild the cloud list: it leaves the prior cloud list in place (and
increments the seed), unlike the `SPACE` event which rebuilds terrain,
trees and clouds together. -/
theorem claim2_held_keeps_clouds (width : Nat) (st st1 : WorldState)
    (h : onHeldUpdate width st = some st1) :
    st1.clouds = st.clouds ∧ st1.seed = st.seed + 1 := by
  unfold onHeldUpdate at h
  obtain ⟨nr, h1, h⟩ := Option.bind_eq_some.mp h
  obtain ⟨⟨ts, rest, s3⟩, h2, h⟩ := Option.bind_eq_some.mp h
  have h3 := Option.some.inj h
  rw [← h3]
  exact ⟨rfl, rfl⟩

/-- Claim C2, counterexample to the claim as stated: at width `3`, from
a state holding one cloud, the held-`C` event leaves the old cloud list
in place while a full regeneration from the new seed's stream (the
`SPACE` event) would produce a different (here: empty) cloud list. -/
theorem claim2_counterexample :
    onHeldUpdate 3 c2State = some c2Held ∧ onSpaceUpdate 3 c2State = some c2Space ∧
    c2Held.clouds ≠ c2Space.clouds := by
  have h1 : (onHeldUpdate 3 c2State).isSome = true := by with_unfolding_all decide
  have h2 : (onSpaceUpdate 3 c2State).isSome = true := by with_unfolding_all decide
  refine ⟨isSome_eq_some_getD _ c2State h1, isSome_eq_some_getD _ c2State h2, ?_⟩
  with_unfolding_all decide

theorem claim2_witness :
    onHeldUpdate 3 c2State = some c2Held ∧ c2Held.clouds = c2State.clouds ∧
    c2Held.seed = c2State.seed + 1 := by
  have h1 : (onHeldUpdate 3 c2State).isSome = true := by with_unfolding_all decide
  have h := isSome_eq_some_getD _ c2State h1
  obtain ⟨ha, hb⟩ := claim2_held_keeps_clouds 3 c2State c2Held h
  exact ⟨h, ha, hb⟩

/-- Claim C3 (corrected).  The velocity update does not add one drawn
acceleration to the velocity: the "acceleration" added is
`rndDouble(-vel*0.1, vel*0.1) + vel`, so the velocity becomes
`2*vel + draw`; and the clamp checks use the signed ratio sequentially
(`vel > range/(ratio/2)` then `vel < -range/(ratio/2)`), which for the
default `ratio = -1` means thresholds `-4` and `4` with targets `-6`
and `6`. -/
theorem claim3_velocity_update :
    (∀ (range : Int) (ratioV vel : ℚ) (s : Nat),
      velUpdate range ratioV vel s = velUpdateAmended range ratioV vel s) ∧
    (∀ (vel : ℚ) (s : Nat),
      velUpdate 2 (-1) vel s =
        (let p := rndDouble (-vel * 0.1) (vel * 0.1) s
         let v1 := 2 * vel + p.1
         let v2 := if v1 > -4 then (-6 : ℚ) else v1
         let v3 := if v2 < 4 then (6 : ℚ) else v2
         (v3, p.2))) := by
  have key : ∀ (range : Int) (ratioV vel : ℚ) (s : Nat),
      velUpdate range ratioV vel s = velUpdateAmended range ratioV vel s := by
    intro range ratioV vel s
    rcases hd : rndDouble (-vel * 0.1) (vel * 0.1) s with ⟨d, s1⟩
    simp only [velUpdate, velUpdateAmended, hd]
    have hacc : vel + (d + vel) = 2 * vel + d := by ring
    rw [hacc]
  refine ⟨key, ?_⟩
  intro vel s
  rcases hd : rndDouble (-vel * 0.1) (vel * 0.1) s with ⟨d, s1⟩
  rw [key 2 (-1) vel s]
  simp only [velUpdateAmended, hd]
  norm_num

/-- Claim C3, counterexample to the claim as stated: at velocity `0`
the code's update yields velocity `6` (both clamp branches fire), while
the claimed update (add one draw, clamp only beyond
`±range/(|ratio|/2)`) would leave it at `0`. -/
theorem claim3_counterexample :
    velUpdate 2 (-1) 0 0 ≠ velUpdateSpec 2 (-1) 0 0 := by
  intro h
  have h1 : (velUpdate 2 (-1) 0 0).1 = (velUpdateSpec 2 (-1) 0 0).1 := congrArg Prod.fst h
  have h2 : (velUpdateSpec 2 (-1) 0 0).1 < (velUpdate 2 (-1) 0 0).1 := by
    with_unfolding_all decide
  rw [h1] at h2
  exact lt_irrefl _ h2

/-- Claim C4 (corrected).  With `startRangeFrom = startRangeTo = 100`
the very first draw computes `get() % 0` — a modulo by zero, undefined
behaviour — so the scenario is not well-defined (model: `none`); both
the generator call of the scenario and `rndInt 100 100` itself fail. -/
theorem claim4_counterexample :
    getNoiseArray 10 100 100 2 8 (-1) 0 = none ∧ rndInt 100 100 0 = none := by
  constructor <;> with_unfolding_all decide

/-- Claim C4, amended.  The nearest well-defined degenerate scenario,
`startRangeTo = 101`, deterministically yields column-0 height exactly
`100` for every seed, because `rndInt(100, 101) = get() mod 1 + 100 =
100` and the smoothing pass leaves column `0` unchanged. -/
theorem claim4_amended_start (s : Nat) :
    (getNoiseArray 10 100 101 2 8 (-1) s).map (fun r => r.arr.getD 0 0) = some 100 := by
  rcases hL : lehmerNext s with ⟨g, s1⟩
  have h1 : rndInt 100 101 s = some (100, s1) := by
    unfold rndInt
    rw [hL]
    norm_num [toInt32]
    omega
  rcases hw : walkLoop 2 (-1) (10 - 1) ((100 : Int) : ℚ) 0 s1 with ⟨rest, s2⟩
  have hRN : rawNoise 10 100 101 2 (-1) s = some (((100 : Int) : ℚ) :: rest, s2) := by
    unfold rawNoise
    rw [h1, Option.some_bind]
    exact congrArg (fun w => some ((((100 : Int) : ℚ)) :: w.1, w.2)) hw
  have hval : (getNoiseArray 10 100 101 2 8 (-1) s).map (fun r => r.arr.getD 0 0) =
      some ((smoothPass 8 (((100 : Int) : ℚ) :: rest)).getD 0 0) := by
    unfold getNoiseArray
    rw [if_neg (by norm_num : ¬(10 = 0)), hRN, Option.some_bind]
    rfl
  rw [hval, smoothPass_getD_zero]
  norm_num

/-- Claim C5 (corrected).  The derived water line is not exactly
`(2*avg + max)/3`: it is the C `(int)` cast — truncation toward zero —
of that value, computed from the same smoothed array as the other
statistics (whose defining expressions over the returned array are
restated here). -/
theorem claim5_waterline (size : Nat) (f t range : Int) (sf : Nat) (ratioV : ℚ)
    (s : Nat) (res : NoiseResult)
    (h : getNoiseArray size f t range sf ratioV s = some res) :
    res.water = truncQ ((2 * res.avgH + res.maxH) / 3) ∧
    res.maxH = res.arr.foldl (fun m v => if v > m then v else m) 0 ∧
    res.avgH = res.arr.foldl (· + ·) 0 / (res.arr.length : ℚ) := by
  unfold getNoiseArray at h
  by_cases hsz : size = 0
  · rw [if_pos hsz] at h
    exact Option.noConfusion h
  · rw [if_neg hsz] at h
    obtain ⟨⟨raw, s1⟩, hR, h⟩ := Option.bind_eq_some.mp h
    have h2 := Option.some.inj h
    rw [← h2]
    exact ⟨rfl, rfl, rfl⟩

/-- Claim C5, counterexample to the claim as stated: for seed `0`,
width `3`, the stored water line (an integer) differs from the exact
rational `(2*avg + max)/3` — the cast truncates. -/
theorem claim5_counterexample :
    getNoiseArray 3 100 820 2 8 (-1) 0 = some c5Run ∧
    (c5Run.water : ℚ) ≠ (2 * c5Run.avgH + c5Run.maxH) / 3 := by
  have h1 : (getNoiseArray 3 100 820 2 8 (-1) 0).isSome = true := by
    with_unfolding_all decide
  exact ⟨isSome_eq_some_getD _ ⟨[], 0, 0, 0, 0, 0⟩ h1, ne_of_lt (by with_unfolding_all decide)⟩

theorem claim5_witness :
    getNoiseArray 1 100 820 2 8 (-1) 0 = some c5Wit ∧
    c5Wit.water = truncQ ((2 * c5Wit.avgH + c5Wit.maxH) / 3) := by
  have h1 : (getNoiseArray 1 100 820 2 8 (-1) 0).isSome = true := by
    with_unfolding_all decide
  have h := isSome_eq_some_getD _ ⟨[], 0, 0, 0, 0, 0⟩ h1
  exact ⟨h, (claim5_waterline 1 100 820 2 8 (-1) 0 c5Wit h).1⟩

/-- Claim C6 (corrected).  Every sample at a column `i ≥ 1` of a
generated terrain array lies in `[200 - 2, 800 + 2] = [198, 802]` (in
fact in `[200, 800 + 2/0x7FFFFFFF]`): kept draws pass the bounds check
and redraws land in the redraw bands, and the smoothing pass only
averages positions `≥ 1`.  Column `0` is the unchecked start draw and is
exempt (see the counterexample). -/
theorem claim6_structural_bounds (size : Nat) (f t : Int) (sf : Nat) (ratioV : ℚ)
    (s : Nat) (res : NoiseResult) (i : Nat)
    (h : getNoiseArray size f t 2 sf ratioV s = some res)
    (hi1 : 1 ≤ i) (hi2 : i < res.arr.length) :
    198 ≤ res.arr.getD i 0 ∧ res.arr.getD i 0 ≤ 802 := by
  unfold getNoiseArray at h
  by_cases hsz : size = 0
  · rw [if_pos hsz] at h
    exact Option.noConfusion h
  · rw [if_neg hsz] at h
    obtain ⟨⟨raw, s1⟩, hR, h⟩ := Option.bind_eq_some.mp h
    have h2 := Option.some.inj h
    unfold rawNoise at hR
    obtain ⟨⟨h0v, sa⟩, h0, hR⟩ := Option.bind_eq_some.mp hR
    have hR2 := Option.some.inj hR
    injection hR2 with hraw hs1
    have hres : res.arr = smoothPass sf raw := (congrArg NoiseResult.arr h2).symm
    have hbound : ∀ k, 1 ≤ k → k < raw.length →
        (200 : ℚ) ≤ raw.getD k 0 ∧ raw.getD k 0 ≤ 802 := by
      intro k hk1 hk2
      obtain ⟨m, rfl⟩ : ∃ m, k = m + 1 := ⟨k - 1, by omega⟩
      rw [← hraw, List.getD_cons_succ]
      rw [← hraw] at hk2
      have hm : m < (walkLoop 2 ratioV (size - 1) ((h0v : Int) : ℚ) 0 sa).1.length := by
        simpa using hk2
      apply walkLoop_mem_bounds ratioV (size - 1) ((h0v : Int) : ℚ) 0 sa
      rw [List.getD_eq_getElem _ _ hm]
      exact List.getElem_mem hm
    have hlen : res.arr.length = raw.length := by
      rw [hres]
      exact smoothPass_length sf raw
    have hbd := smoothPass_bounds sf raw hbound i hi1 (by rwa [hlen] at hi2)
    rw [hres]
    exact ⟨by linarith [hbd.1], hbd.2⟩

/-- Claim C6, counterexample to the claim as stated: for seed `11`,
width `2`, the column-0 sample is `154`, far below the claimed band
`[198, 802]` — the start draw `rndInt(100, 820)` is never
bounds-checked and the smoothing pass leaves column `0` unchanged. -/
theorem claim6_counterexample :
    getNoiseArray 2 100 820 2 8 (-1) 11 = some c6Bad ∧ c6Bad.arr.getD 0 0 < 198 := by
  have h1 : (getNoiseArray 2 100 820 2 8 (-1) 11).isSome = true := by
    with_unfolding_all decide
  refine ⟨isSome_eq_some_getD _ ⟨[], 0, 0, 0, 0, 0⟩ h1, ?_⟩
  with_unfolding_all decide

theorem claim6_witness :
    getNoiseArray 2 100 820 2 8 (-1) 0 = some c6Wit ∧ (1 : Nat) ≤ 1 ∧
    1 < c6Wit.arr.length ∧ 198 ≤ c6Wit.arr.getD 1 0 ∧ c6Wit.arr.getD 1 0 ≤ 802 := by
  have h1 : (getNoiseArray 2 100 820 2 8 (-1) 0).isSome = true := by
    with_unfolding_all decide
  have h := isSome_eq_some_getD _ ⟨[], 0, 0, 0, 0, 0⟩ h1
  have hl : 1 < c6Wit.arr.length := by with_unfolding_all decide
  obtain ⟨b1, b2⟩ := claim6_structural_bounds 2 100 820 8 (-1) 0 c6Wit 1 h (by norm_num) hl
  exact ⟨h, le_refl 1, hl, b1, b2⟩

/-- Claim C7 (confirmed).  Tree-placement gating: the placed trees stand
exactly at the scanned candidate columns whose terrain sample is
strictly below the (forced) average; in particular, if no sample is
below the average the tree list is empty, and if every sample is below
the average every scanned candidate column contributes exactly one
tree (the tree list's columns are exactly the scanned columns). -/
theorem claim7_tree_gating (freq : Int) (arr : List ℚ) (avg : ℚ) (width s : Nat)
    (ts : List Tree) (cols : List Int) (s1 : Nat)
    (h : getTreeList freq arr avg width s = some (ts, cols, s1)) :
    ts.map Tree.x = cols.filter (fun c => decide (arr.getD c.toNat 0 < avg)) ∧
    (0 < width → width ≤ arr.length →
      (∀ i, i < arr.length → ¬ arr.getD i 0 < avg) → ts = []) ∧
    (0 < width → width ≤ arr.length →
      (∀ i, i < arr.length → arr.getD i 0 < avg) → ts.map Tree.x = cols) := by
  unfold getTreeList at h
  obtain ⟨⟨d, sa⟩, h0, h⟩ := Option.bind_eq_some.mp h
  obtain ⟨h1, h2⟩ := treeLoop_spec freq arr avg width (width + 1) (40 + d) sa ts cols s1 h
  refine ⟨h1, ?_, ?_⟩
  · intro hw hwl hnone
    have hfil : cols.filter (fun c => decide (arr.getD c.toNat 0 < avg)) = [] := by
      rw [List.filter_eq_nil_iff]
      intro c hc
      have hclt := h2 c hc
      have hcn : c.toNat < arr.length := by omega
      simp only [decide_eq_true_eq]
      exact hnone c.toNat hcn
    rw [hfil] at h1
    exact List.map_eq_nil_iff.mp h1
  · intro hw hwl hall
    rw [h1]
    apply List.filter_eq_self.mpr
    intro c hc
    have hclt := h2 c hc
    have hcn : c.toNat < arr.length := by omega
    simp only [decide_eq_true_eq]
    exact hall c.toNat hcn

theorem claim7_witness :
    getTreeList 120 (List.replicate 90 (0 : ℚ)) 0 90 0 = some ([], [], 3777035285) ∧
    (([] : List Tree).map Tree.x =
      ([] : List Int).filter
        (fun c => decide ((List.replicate 90 (0 : ℚ)).getD c.toNat 0 < 0))) := by
  have h1 : (getTreeList 120 (List.replicate 90 (0 : ℚ)) 0 90 0).isSome = true := by
    with_unfolding_all decide
  have h := isSome_eq_some_getD _ ([], [], 0) h1
  have hv : (getTreeList 120 (List.replicate 90 (0 : ℚ)) 0 90 0).getD ([], [], 0) =
      ([], [], 3777035285) := by
    with_unfolding_all decide
  rw [hv] at h
  exact ⟨h, (claim7_tree_gating 120 (List.replicate 90 (0 : ℚ)) 0 90 0 [] [] 3777035285 h).1⟩

/-- Claim C8 (corrected).  The smoothing window of a column `j` with a
full window has `smoothFactor` entries, not `smoothFactor + 1`, and the
pass is in place: the smoothed value at `j ≥ smoothFactor` is the mean
of the pre-smoothing sample at `j` together with the already-smoothed
values at `j - 1, …, j - (smoothFactor - 1)`. -/
theorem claim8_smoothing_window (sf : Nat) (arr : List ℚ) (j : Nat)
    (hsf : 1 ≤ sf) (hj : sf ≤ j) (hlen : j < arr.length) :
    (smoothPass sf arr).getD j 0 =
      (arr.getD j 0 + ((List.range (sf - 1)).map fun k =>
        (smoothPass sf arr).getD (j - 1 - k) 0).sum) / (sf : ℚ) :=
  smoothPass_getD_window sf arr hsf hj hlen

/-- Claim C8, counterexample to the claim as stated: for the array
`[0, 3, 9]` and `smoothFactor = 2`, column `2` (which has two
predecessors) is smoothed to `6`, which is not the mean `4` of the
three pre-smoothing samples at indices `0, 1, 2`. -/
theorem claim8_counterexample :
    (smoothPass 2 [(0 : ℚ), 3, 9]).getD 2 0 ≠
      (((List.range (2 + 1)).map fun k => [(0 : ℚ), 3, 9].getD (2 - k) 0).sum) /
        ((2 : ℚ) + 1) := by
  exact ne_of_gt (by with_unfolding_all decide)

theorem claim8_witness :
    ((1 : Nat) ≤ 2 ∧ (2 : Nat) ≤ 2 ∧ 2 < [(0 : ℚ), 3, 9].length) ∧
    (smoothPass 2 [(0 : ℚ), 3, 9]).getD 2 0 =
      ([(0 : ℚ), 3, 9].getD 2 0 + ((List.range (2 - 1)).map fun k =>
        (smoothPass 2 [(0 : ℚ), 3, 9]).getD (2 - 1 - k) 0).sum) / ((2 : Nat) : ℚ) := by
  refine ⟨⟨by norm_num, by norm_num, by norm_num⟩, ?_⟩
  exact claim8_smoothing_window 2 [(0 : ℚ), 3, 9] 2 (by norm_num) (by norm_num) (by norm_num)

/-- Claim C9 (confirmed).  For the program's invocation (`range = 2`,
`VEL_RATIO = -1`): the two clamp checks (`vel > -4 ↦ -6`, then
`vel < 4 ↦ 6`) both fire for every nonnegative incoming velocity, so
the velocity equals exactly `6` after every iteration regardless of the
draws; consequently the walk starting at velocity `0` recurses with
velocity `6`, and from then on every raw height draw is taken on
`[prev - 8, prev + 8]`. -/
theorem claim9_velocity_invariant :
    (∀ (vel : ℚ) (s : Nat), 0 ≤ vel → (velUpdate 2 (-1) vel s).1 = 6) ∧
    (∀ (n : Nat) (prev : ℚ) (s : Nat),
      walkLoop 2 (-1) (n + 1) prev 0 s =
        (let p := walkStep 2 (prev - 2) (prev + 2) s
         let q := velUpdate 2 (-1) 0 p.2
         let r := walkLoop 2 (-1) n p.1 6 q.2
         (p.1 :: r.1, r.2))) ∧
    (∀ (n : Nat) (prev : ℚ) (s : Nat),
      walkLoop 2 (-1) (n + 1) prev 6 s =
        (let p := walkStep 2 (prev - 8) (prev + 8) s
         let q := velUpdate 2 (-1) 6 p.2
         let r := walkLoop 2 (-1) n p.1 6 q.2
         (p.1 :: r.1, r.2))) := by
  refine ⟨fun vel s h => velUpdate_of_nonneg vel s h, ?_, ?_⟩
  · intro n prev s
    have h := walkLoop_succ_eq n prev 0 s le_rfl
    simp only [sub_zero, add_zero] at h
    exact h
  · intro n prev s
    have h := walkLoop_succ_eq n prev 6 s (by norm_num)
    have harg1 : prev - 2 - 6 = prev - 8 := by ring
    have harg2 : prev + 2 + 6 = prev + 8 := by ring
    rw [harg1, harg2] at h
    exact h

theorem claim9_witness :
    (0 : ℚ) ≤ 0 ∧ (velUpdate 2 (-1) 0 0).1 = 6 :=
  ⟨le_refl 0, claim9_velocity_invariant.1 0 0 (le_refl 0)⟩

/-- Claim C10 (confirmed).  Column `0` of every generated terrain array
is left unchanged by the smoothing pass: the smoothed array and the raw
(pre-smoothing) array agree at index `0`. -/
theorem claim10_column0 (size : Nat) (f t range : Int) (sf : Nat) (ratioV : ℚ)
    (s : Nat) (raw : List ℚ) (s1 : Nat) (res : NoiseResult)
    (hR : rawNoise size f t range ratioV s = some (raw, s1))
    (h : getNoiseArray size f t range sf ratioV s = some res) :
    res.arr.getD 0 0 = raw.getD 0 0 := by
  unfold getNoiseArray at h
  by_cases hsz : size = 0
  · rw [if_pos hsz] at h
    exact Option.noConfusion h
  · rw [if_neg hsz] at h
    rw [hR, Option.some_bind] at h
    have h2 := Option.some.inj h
    rw [← h2]
    exact smoothPass_getD_zero sf raw 0

theorem claim10_witness :
    getNoiseArray 1 100 820 2 8 (-1) 0 = some c10Res ∧
    rawNoise 1 100 820 2 (-1) 0 = some (c10Raw.1, c10Raw.2) ∧
    c10Res.arr.getD 0 0 = c10Raw.1.getD 0 0 := by
  have hs1 : (getNoiseArray 1 100 820 2 8 (-1) 0).isSome = true := by
    with_unfolding_all decide
  have hs2 : (rawNoise 1 100 820 2 (-1) 0).isSome = true := by
    with_unfolding_all decide
  have h1 := isSome_eq_some_getD _ ⟨[], 0, 0, 0, 0, 0⟩ hs1
  have h2 := isSome_eq_some_getD _ ([], 0) hs2
  exact ⟨h1, h2, claim10_column0 1 100 820 2 8 (-1) 0 c10Raw.1 c10Raw.2 c10Res h2 h1⟩

end TG
